import Mathlib

/-!
Verification of the filename-resolution and streaming-persistence pipeline of
`fetch_image.py` (repository Ubuntu_Requests).

Python strings are modelled as `List Char`.  Each definition below embeds one
function of the source file (or, where noted in its doc comment, the relevant
behaviour of a standard-library / third-party collaborator such as
`urllib.parse.urlparse`, `os.path`, `mimetypes.guess_extension` and
`requests`, which are outside the repository and are modelled from their
documented semantics).
-/

abbrev Str := List Char

/-- Character data of a Lean string literal, used to write concrete inputs. -/
def str (s : String) : Str := s.data

/- ------------------------------------------------------------------ -/
/- `sanitize_filename` (src/fetch_image.py lines 39-43)                -/
/- ------------------------------------------------------------------ -/

/-- The character class `[A-Za-z0-9._-]` of the regex in
`sanitize_filename` (`Char.isAlpha`/`Char.isDigit` are exactly the ASCII
letter and digit ranges, matching the ASCII regex classes). -/
def safeChar (c : Char) : Bool :=
  c.isAlpha || c.isDigit || c == '.' || c == '_' || c == '-'

/-- `re.sub(r"[^A-Za-z0-9._-]", "_", name)`. -/
def replaceUnsafe (name : Str) : Str :=
  name.map fun c => if safeChar c then c else '_'

/-- The set of characters stripped by `.strip("._-")`. -/
def stripSet (c : Char) : Bool := c == '.' || c == '_' || c == '-'

/-- Python `str.strip(chars)`: remove the characters satisfying `p` from both
ends of the string. -/
def stripChars (p : Char → Bool) (s : Str) : Str :=
  (((s.dropWhile p).reverse).dropWhile p).reverse

/-- `sanitize_filename` (lines 39-43):
`safe = re.sub(r"[^A-Za-z0-9._-]", "_", name); return safe.strip("._-") or "file"`. -/
def sanitize_filename (name : Str) : Str :=
  let stripped := stripChars stripSet (replaceUnsafe name)
  if stripped = [] then str "file" else stripped

/- helper lemmas about dropWhile / stripChars -/

theorem dropWhile_head_false {p : Char → Bool} {l : Str} {c : Char} {t : Str}
    (h : l.dropWhile p = c :: t) : p c = false := by
  induction l with
  | nil => simp [List.dropWhile] at h
  | cons a l ih =>
    by_cases hp : p a
    · rw [List.dropWhile_cons_of_pos hp] at h; exact ih h
    · rw [List.dropWhile_cons_of_neg hp] at h
      cases h
      simpa using hp

theorem dropWhile_self_of_head_false {p : Char → Bool} {l : Str}
    (h : ∀ c t, l = c :: t → p c = false) : l.dropWhile p = l := by
  cases l with
  | nil => rfl
  | cons a l => rw [List.dropWhile_cons_of_neg (by simp [h a l rfl])]

/-- The strip of a string is an initial-and-final trimming: the original is
the stripped middle plus trailing junk, after dropping the leading junk. -/
theorem stripChars_eq_append (p : Char → Bool) (s : Str) :
    ∃ post, s.dropWhile p = stripChars p s ++ post := by
  refine ⟨((s.dropWhile p).reverse.takeWhile p).reverse, ?_⟩
  unfold stripChars
  conv_lhs => rw [← List.reverse_reverse (s.dropWhile p),
    ← List.takeWhile_append_dropWhile p (s.dropWhile p).reverse]
  rw [List.reverse_append]

theorem stripChars_head_false {p : Char → Bool} {s : Str} {c : Char} {t : Str}
    (h : stripChars p s = c :: t) : p c = false := by
  obtain ⟨post, hpost⟩ := stripChars_eq_append p s
  rw [h] at hpost
  exact dropWhile_head_false (l := s) hpost

theorem dropWhile_idem (p : Char → Bool) (l : Str) :
    (l.dropWhile p).dropWhile p = l.dropWhile p := by
  apply dropWhile_self_of_head_false
  intro c t h
  exact dropWhile_head_false h

theorem stripChars_idem (p : Char → Bool) (s : Str) :
    stripChars p (stripChars p s) = stripChars p s := by
  have h1 : (stripChars p s).dropWhile p = stripChars p s := by
    apply dropWhile_self_of_head_false
    intro c t h
    exact stripChars_head_false h
  show (((stripChars p s).dropWhile p).reverse.dropWhile p).reverse = stripChars p s
  rw [h1]
  show ((((s.dropWhile p).reverse.dropWhile p).reverse).reverse.dropWhile p).reverse = _
  rw [List.reverse_reverse, dropWhile_idem]
  rfl

theorem mem_stripChars {p : Char → Bool} {s : Str} {c : Char}
    (h : c ∈ stripChars p s) : c ∈ s := by
  unfold stripChars at h
  rw [List.mem_reverse] at h
  have h1 := (List.dropWhile_sublist (l := (s.dropWhile p).reverse) p).mem h
  rw [List.mem_reverse] at h1
  exact (List.dropWhile_sublist p).mem h1

theorem mem_replaceUnsafe_safe {name : Str} {c : Char}
    (h : c ∈ replaceUnsafe name) : safeChar c = true := by
  unfold replaceUnsafe at h
  obtain ⟨a, _, ha⟩ := List.mem_map.mp h
  by_cases hs : safeChar a
  · rw [if_pos hs] at ha; rw [← ha]; exact hs
  · rw [if_neg hs] at ha; rw [← ha]; decide

theorem sanitize_filename_chars_safe (name : Str) :
    ∀ c ∈ sanitize_filename name, safeChar c = true := by
  intro c hc
  unfold sanitize_filename at hc
  by_cases h : stripChars stripSet (replaceUnsafe name) = []
  · rw [if_pos h] at hc
    rw [show str "file" = ['f', 'i', 'l', 'e'] from rfl] at hc
    have hcases : c = 'f' ∨ c = 'i' ∨ c = 'l' ∨ c = 'e' := by simpa using hc
    rcases hcases with rfl | rfl | rfl | rfl <;> decide
  · rw [if_neg h] at hc
    exact mem_replaceUnsafe_safe (mem_stripChars hc)

theorem sanitize_filename_ne_nil (name : Str) : sanitize_filename name ≠ [] := by
  unfold sanitize_filename
  by_cases h : stripChars stripSet (replaceUnsafe name) = []
  · rw [if_pos h]; decide
  · rw [if_neg h]; exact h

/-- Claim C1: for every input string, `sanitize_filename` returns a string
matching `^[A-Za-z0-9._-]+$` (non-empty, every character in the safe class):
unsafe characters are replaced by `_`, leading/trailing `.`/`_`/`-` are
stripped, and when the stripped result is empty the literal `"file"` is
returned instead. -/
theorem claim_C1 (name : Str) :
    sanitize_filename name ≠ [] ∧
    (∀ c ∈ sanitize_filename name, safeChar c = true) ∧
    (stripChars stripSet (replaceUnsafe name) = [] →
      sanitize_filename name = str "file") := by
  refine ⟨sanitize_filename_ne_nil name, sanitize_filename_chars_safe name, ?_⟩
  intro h
  unfold sanitize_filename
  rw [if_pos h]

/-- Closed-form witness for claim C1 at the concrete inputs
`"my photo!.png"` (stripping applies) and `"???"` (fallback applies). -/
theorem claim_C1_witness :
    sanitize_filename (str "???") = str "file" ∧
    sanitize_filename (str "my photo!.png") ≠ [] := by
  constructor
  · exact (claim_C1 (str "???")).2.2 (by decide)
  · exact (claim_C1 (str "my photo!.png")).1

theorem replaceUnsafe_of_all_safe {s : Str} (h : ∀ c ∈ s, safeChar c = true) :
    replaceUnsafe s = s := by
  unfold replaceUnsafe
  induction s with
  | nil => rfl
  | cons a t ih =>
    simp only [List.map_cons]
    rw [if_pos (h a (by simp)), ih (fun c hc => h c (by simp [hc]))]

/-- Claim C10: `sanitize_filename` is idempotent, so the double application in
the pipeline (inside `filename_from_url` and again before `unique_filepath`)
never changes an already-sanitized name. -/
theorem claim_C10 (name : Str) :
    sanitize_filename (sanitize_filename name) = sanitize_filename name := by
  by_cases h : stripChars stripSet (replaceUnsafe name) = []
  · have h1 : sanitize_filename name = str "file" := by
      unfold sanitize_filename; rw [if_pos h]
    rw [h1]; decide
  · have h1 : sanitize_filename name = stripChars stripSet (replaceUnsafe name) := by
      unfold sanitize_filename; rw [if_neg h]
    rw [h1]
    unfold sanitize_filename
    rw [replaceUnsafe_of_all_safe (fun c hc => mem_replaceUnsafe_safe (mem_stripChars hc)),
      stripChars_idem, if_neg h]

/- ------------------------------------------------------------------ -/
/- `unique_filepath` (src/fetch_image.py lines 73-84)                  -/
/- ------------------------------------------------------------------ -/

/-- The decimal digit character of `d` (0-9). -/
def digitChar (d : Nat) : Char := Char.ofNat (48 + d)

/-- Worker for `natRepr`, structurally recursive on a fuel that is always
sufficient (the digit count of `n` is at most `n + 1`). -/
def natReprGo : Nat → Nat → Str → Str
  | 0, _, acc => acc
  | fuel+1, n, acc =>
    let acc2 := digitChar (n % 10) :: acc
    if n < 10 then acc2 else natReprGo fuel (n / 10) acc2

/-- Decimal rendering of a natural number, as the f-string `f"{i}"` does. -/
def natRepr (n : Nat) : Str := natReprGo (n+1) n []

/-- Numeric value of a decimal digit character. -/
def digitVal (c : Char) : Nat := c.toNat - 48

/-- Value of a decimal digit string (used only to invert `natRepr`). -/
def digitsVal (s : Str) : Nat := s.foldl (fun a c => 10 * a + digitVal c) 0

theorem natReprGo_append (fuel : Nat) :
    ∀ n acc, natReprGo fuel n acc = natReprGo fuel n [] ++ acc := by
  induction fuel with
  | zero => intro n acc; rfl
  | succ fuel ih =>
    intro n acc
    simp only [natReprGo]
    by_cases h : n < 10
    · simp [h]
    · simp only [if_neg h]
      rw [ih (n / 10) (digitChar (n % 10) :: acc), ih (n / 10) [digitChar (n % 10)]]
      simp

theorem digitsVal_foldl (s : Str) :
    ∀ v : Nat, s.foldl (fun a c => 10 * a + digitVal c) v = v * 10 ^ s.length + digitsVal s := by
  induction s with
  | nil => intro v; simp [digitsVal]
  | cons c t ih =>
    intro v
    show t.foldl _ (10 * v + digitVal c) = _
    rw [ih (10 * v + digitVal c)]
    have h0 : digitsVal (c :: t) = (10 * 0 + digitVal c) * 10 ^ t.length + digitsVal t := by
      show t.foldl _ (10 * 0 + digitVal c) = _
      rw [ih (10 * 0 + digitVal c)]
    rw [h0]
    simp [List.length_cons]
    ring

theorem digitVal_digitChar : ∀ d < 10, digitVal (digitChar d) = d := by decide

theorem digitsVal_natReprGo : ∀ fuel, ∀ n, n < 10 ^ fuel →
    digitsVal (natReprGo fuel n []) = n := by
  intro fuel
  induction fuel with
  | zero =>
    intro n h
    interval_cases n
    rfl
  | succ fuel ih =>
    intro n h
    simp only [natReprGo]
    by_cases h10 : n < 10
    · rw [if_pos h10]
      show digitsVal [digitChar (n % 10)] = n
      unfold digitsVal
      simp only [List.foldl_cons, List.foldl_nil]
      rw [digitVal_digitChar (n % 10) (Nat.mod_lt _ (by norm_num))]
      simp [Nat.mod_eq_of_lt h10]
    · rw [if_neg h10]
      rw [natReprGo_append]
      unfold digitsVal
      rw [List.foldl_append]
      simp only [List.foldl_cons, List.foldl_nil]
      have hdiv : n / 10 < 10 ^ fuel := by
        rw [Nat.div_lt_iff_lt_mul (by norm_num)]
        calc n < 10 ^ (fuel + 1) := h
          _ = 10 ^ fuel * 10 := by ring
      have hval : (natReprGo fuel (n / 10) []).foldl
          (fun a c => 10 * a + digitVal c) 0 = n / 10 := ih (n / 10) hdiv
      rw [digitVal_digitChar (n % 10) (Nat.mod_lt _ (by norm_num))]
      omega

theorem digitsVal_natRepr (n : Nat) : digitsVal (natRepr n) = n := by
  apply digitsVal_natReprGo
  calc n < 2 ^ n := Nat.lt_two_pow n
    _ ≤ 10 ^ n := Nat.pow_le_pow_left (by norm_num) n
    _ ≤ 10 ^ (n + 1) := Nat.pow_le_pow_right (by norm_num) (Nat.le_succ n)

theorem natRepr_inj {a b : Nat} (h : natRepr a = natRepr b) : a = b := by
  have h2 := congrArg digitsVal h
  rwa [digitsVal_natRepr, digitsVal_natRepr] at h2

theorem natRepr_ne_nil (n : Nat) : natRepr n ≠ [] := by
  unfold natRepr
  simp only [natReprGo]
  by_cases h : n < 10
  · simp [h]
  · rw [if_neg h, natReprGo_append]
    simp

/-- Model of posix `os.path.splitext` for names without a path separator:
split at the last `'.'`, unless every character before that dot is itself a
dot (CPython skips the leading dots of the basename). -/
def splitext (s : Str) : Str × Str :=
  let tailLen := (s.reverse.takeWhile (fun c => c ≠ '.')).length
  if tailLen = s.length then (s, [])
  else
    let i := s.length - tailLen - 1
    if (s.take i).any (fun c => c ≠ '.') then (s.take i, s.drop i) else (s, [])

theorem splitext_append (s : Str) : (splitext s).1 ++ (splitext s).2 = s := by
  simp only [splitext]
  split
  · simp
  · split
    · exact List.take_append_drop _ s
    · simp

def FETCH_DIR : Str := str "Fetched_Images"

/-- posix `os.path.join` for a relative second component (the names produced
by `sanitize_filename` never contain `'/'`). -/
def joinPath (dir name : Str) : Str := dir ++ '/' :: name

/-- The collision candidate `f"{base}_{i}{ext}"` built on line 82. -/
def suffixCandidate (base : Str) (i : Nat) (ext : Str) : Str :=
  base ++ '_' :: (natRepr i ++ ext)

/-- The while-loop of `unique_filepath` (lines 79-83), with explicit fuel:
`none` models divergence of the unbounded Python loop and is proved
unreachable below.  `entries` is the set of names existing in `directory`, so
`os.path.exists(os.path.join(directory, candidate))` is membership of
`candidate` in `entries`. -/
def uniqLoop (entries : List Str) (base ext : Str) : Nat → Str → Nat → Option Str
  | 0, _, _ => none
  | fuel+1, candidate, i =>
    if candidate ∈ entries then
      uniqLoop entries base ext fuel (suffixCandidate base i ext) (i+1)
    else some candidate

/-- `unique_filepath` (lines 73-84).  The fuel `entries.length + 1` always
suffices for the loop to reach a free name (`unique_filepath_isSome`). -/
def unique_filepath (entries : List Str) (dir filename : Str) : Option Str :=
  match uniqLoop entries (splitext filename).1 (splitext filename).2
      (entries.length + 1) filename 1 with
  | some c => some (joinPath dir c)
  | none => none

/-- The sequence of names probed by the loop: first the original filename,
then the numbered candidates starting at index `i`. -/
def candAt (c : Str) (base ext : Str) (i : Nat) : Nat → Str
  | 0 => c
  | m+1 => suffixCandidate base (i + m) ext

theorem candAt_shift (c base ext : Str) (i m : Nat) :
    candAt (suffixCandidate base i ext) base ext (i+1) m = candAt c base ext i (m+1) := by
  cases m with
  | zero => simp [candAt]
  | succ k =>
    show suffixCandidate base (i+1+k) ext = suffixCandidate base (i+(k+1)) ext
    rw [show i+1+k = i+(k+1) by omega]

theorem uniqLoop_isSome (entries : List Str) (base ext : Str) :
    ∀ fuel i c, (∃ m, m < fuel ∧ candAt c base ext i m ∉ entries) →
      (uniqLoop entries base ext fuel c i).isSome := by
  intro fuel
  induction fuel with
  | zero =>
    rintro i c ⟨m, hm, _⟩
    omega
  | succ fuel ih =>
    rintro i c ⟨m, hm, hfree⟩
    simp only [uniqLoop]
    by_cases hc : c ∈ entries
    · rw [if_pos hc]
      apply ih
      cases m with
      | zero => exact absurd hc hfree
      | succ k =>
        refine ⟨k, by omega, ?_⟩
        rw [candAt_shift c base ext i k]
        exact hfree
    · rw [if_neg hc]
      simp

theorem uniqLoop_result (entries : List Str) (base ext : Str) :
    ∀ fuel i c r, uniqLoop entries base ext fuel c i = some r →
      (r = c ∧ c ∉ entries) ∨
      (c ∈ entries ∧ ∃ k, i ≤ k ∧ r = suffixCandidate base k ext ∧
        suffixCandidate base k ext ∉ entries ∧
        ∀ j, i ≤ j → j < k → suffixCandidate base j ext ∈ entries) := by
  intro fuel
  induction fuel with
  | zero => intro i c r h; simp [uniqLoop] at h
  | succ fuel ih =>
    intro i c r h
    simp only [uniqLoop] at h
    by_cases hc : c ∈ entries
    · rw [if_pos hc] at h
      right
      refine ⟨hc, ?_⟩
      rcases ih (i+1) (suffixCandidate base i ext) r h with
        ⟨hr, hfree⟩ | ⟨hmem, k, hk, hr, hfree, hall⟩
      · exact ⟨i, Nat.le_refl i, hr, hr ▸ hfree,
          fun j h1 h2 => absurd (Nat.lt_of_le_of_lt h1 h2) (Nat.lt_irrefl i)⟩
      · refine ⟨k, by omega, hr, hfree, ?_⟩
        intro j hij hjk
        by_cases hj : j = i
        · rw [hj]; exact hmem
        · exact hall j (by omega) hjk
    · rw [if_neg hc] at h
      injection h with h
      exact Or.inl ⟨h.symm, hc⟩

theorem list_append_left_cancel {α : Type} {xs ys zs : List α}
    (h : xs ++ ys = xs ++ zs) : ys = zs := by
  induction xs with
  | nil => exact h
  | cons a xs ih =>
    injection h with _ h2
    exact ih h2

theorem list_append_right_cancel {α : Type} {xs ys zs : List α}
    (h : xs ++ zs = ys ++ zs) : xs = ys := by
  have h1 := congrArg List.reverse h
  rw [List.reverse_append, List.reverse_append] at h1
  have h2 := congrArg List.reverse (list_append_left_cancel h1)
  simpa using h2

theorem suffixCandidate_inj {base ext : Str} {i j : Nat}
    (h : suffixCandidate base i ext = suffixCandidate base j ext) : i = j := by
  unfold suffixCandidate at h
  have h1 := list_append_left_cancel h
  injection h1 with _ h2
  exact natRepr_inj (list_append_right_cancel h2)

theorem filename_ne_suffixCandidate (filename : Str) (k : Nat) :
    filename ≠ suffixCandidate (splitext filename).1 k (splitext filename).2 := by
  intro h
  have hlen := congrArg List.length h
  have hsplit := congrArg List.length (splitext_append filename)
  have hnn : 0 < (natRepr k).length := List.length_pos.mpr (natRepr_ne_nil k)
  simp only [suffixCandidate, List.length_append, List.length_cons] at hlen hsplit
  omega

theorem exists_free_candidate (entries : List Str) (filename : Str) :
    ∃ m, m < entries.length + 1 ∧
      candAt filename (splitext filename).1 (splitext filename).2 1 m ∉ entries := by
  by_contra hcon
  push_neg at hcon
  have hinj : Set.InjOn (candAt filename (splitext filename).1 (splitext filename).2 1)
      (Finset.range (entries.length + 1)) := by
    intro a _ b _ hab
    match a, b with
    | 0, 0 => rfl
    | 0, m+1 => exact absurd hab (filename_ne_suffixCandidate filename (1 + m))
    | m+1, 0 => exact absurd hab.symm (filename_ne_suffixCandidate filename (1 + m))
    | m+1, k+1 =>
      have := suffixCandidate_inj hab
      omega
  have hmaps : ∀ m ∈ Finset.range (entries.length + 1),
      candAt filename (splitext filename).1 (splitext filename).2 1 m ∈ entries.toFinset := by
    intro m hm
    rw [List.mem_toFinset]
    exact hcon m (Finset.mem_range.mp hm)
  have hcard := Finset.card_le_card_of_injOn _ hmaps hinj
  rw [Finset.card_range] at hcard
  have hle := List.toFinset_card_le entries
  omega

theorem unique_filepath_isSome (entries : List Str) (dir filename : Str) :
    (unique_filepath entries dir filename).isSome = true := by
  unfold unique_filepath
  have h := uniqLoop_isSome entries (splitext filename).1 (splitext filename).2
    (entries.length + 1) 1 filename (exists_free_candidate entries filename)
  cases hm : uniqLoop entries (splitext filename).1 (splitext filename).2
      (entries.length + 1) filename 1 with
  | some c => simp
  | none => rw [hm] at h; simp at h

/-- Claim C2: `unique_filepath` returns `directory/filename` when no entry
with that name exists; with `a.jpg` present it returns `dir/a_1.jpg`; with
both `a.jpg` and `a_1.jpg` present it returns `dir/a_2.jpg`; and in general
the returned name is the first free name in the sequence
`filename, stem_1.ext, stem_2.ext, ...`. -/
theorem claim_C2 (entries : List Str) (filename : Str) :
    (filename ∉ entries →
      unique_filepath entries FETCH_DIR filename
        = some (joinPath FETCH_DIR filename)) ∧
    unique_filepath [str "a.jpg"] FETCH_DIR (str "a.jpg")
      = some (str "Fetched_Images/a_1.jpg") ∧
    unique_filepath [str "a.jpg", str "a_1.jpg"] FETCH_DIR (str "a.jpg")
      = some (str "Fetched_Images/a_2.jpg") ∧
    (∀ r, unique_filepath entries FETCH_DIR filename = some r →
      (filename ∉ entries ∧ r = joinPath FETCH_DIR filename) ∨
      (filename ∈ entries ∧ ∃ k, 1 ≤ k ∧
        r = joinPath FETCH_DIR
          (suffixCandidate (splitext filename).1 k (splitext filename).2) ∧
        suffixCandidate (splitext filename).1 k (splitext filename).2 ∉ entries ∧
        ∀ j, 1 ≤ j → j < k →
          suffixCandidate (splitext filename).1 j (splitext filename).2 ∈ entries)) := by
  refine ⟨?_, by decide, by decide, ?_⟩
  · intro hfree
    unfold unique_filepath
    rw [show uniqLoop entries (splitext filename).1 (splitext filename).2
        (entries.length + 1) filename 1 = some filename by
      simp only [uniqLoop, if_neg hfree]]
  · intro r hr
    unfold unique_filepath at hr
    cases hm : uniqLoop entries (splitext filename).1 (splitext filename).2
        (entries.length + 1) filename 1 with
    | none => rw [hm] at hr; exact absurd hr (by simp)
    | some c =>
      rw [hm] at hr
      injection hr with hr
      rcases uniqLoop_result entries (splitext filename).1 (splitext filename).2
          (entries.length + 1) 1 filename c hm with
        ⟨hcf, hnot⟩ | ⟨hmem, k, hk, hc, hkfree, hall⟩
      · exact Or.inl ⟨hnot, by rw [← hr, hcf]⟩
      · exact Or.inr ⟨hmem, k, hk, by rw [← hr, hc], hkfree, hall⟩

/-- Witness for claim C2: with only `a.jpg` present, `b.png` resolves to
itself under the output directory. -/
theorem claim_C2_witness :
    unique_filepath [str "a.jpg"] FETCH_DIR (str "b.png")
      = some (str "Fetched_Images/b.png") := by
  rw [(claim_C2 [str "a.jpg"] (str "b.png")).1 (by decide)]
  decide

theorem uniqLoop_reaches (entries : List Str) (base ext : Str) :
    ∀ m fuel i c, c ∈ entries →
      (∀ j, i ≤ j → j < i + m → suffixCandidate base j ext ∈ entries) →
      suffixCandidate base (i + m) ext ∉ entries →
      m + 2 ≤ fuel →
      uniqLoop entries base ext fuel c i
        = some (suffixCandidate base (i + m) ext) := by
  intro m
  induction m with
  | zero =>
    intro fuel i c hc _ hfree hfuel
    obtain ⟨fuel, rfl⟩ : ∃ f, fuel = f + 2 := ⟨fuel - 2, by omega⟩
    simp only [uniqLoop, if_pos hc]
    rw [if_neg (by simpa using hfree)]
    simp
  | succ m ih =>
    intro fuel i c hc hall hfree hfuel
    obtain ⟨fuel, rfl⟩ : ∃ f, fuel = f + 1 := ⟨fuel - 1, by omega⟩
    simp only [uniqLoop, if_pos hc]
    have hrec := ih fuel (i+1) (suffixCandidate base i ext)
      (hall i (Nat.le_refl i) (by omega))
      (fun j h1 h2 => hall j (by omega) (by omega))
      (by rw [show i+1+m = i+(m+1) by omega]; exact hfree)
      (by omega)
    rw [hrec, show i+1+m = i+(m+1) by omega]

/-- Claim C8 (amended): `unique_filepath` terminates for every finite
directory state and filename — the loop always reaches an unused name — and
the implementation imposes no retry cap: it never fails. -/
theorem claim_C8 (entries : List Str) (dir filename : Str) :
    (unique_filepath entries dir filename).isSome = true :=
  unique_filepath_isSome entries dir filename

/-- The directory state refuting the 10,000-retry cap of claim C8: `a.jpg`
together with all numbered candidates `a_1.jpg .. a_10000.jpg`. -/
def capEntries : List Str :=
  str "a.jpg" ::
    (List.range 10000).map (fun k => suffixCandidate (str "a") (k+1) (str ".jpg"))

theorem capEntries_length : capEntries.length = 10001 := by
  simp [capEntries]

theorem capEntries_mem : ∀ j, 1 ≤ j → j < 1 + 10000 →
    suffixCandidate (str "a") j (str ".jpg") ∈ capEntries := by
  intro j hj1 hj2
  unfold capEntries
  apply List.mem_cons_of_mem
  apply List.mem_map.mpr
  exact ⟨j - 1, List.mem_range.mpr (by omega), by rw [show j - 1 + 1 = j by omega]⟩

theorem capEntries_free :
    suffixCandidate (str "a") (1 + 10000) (str ".jpg") ∉ capEntries := by
  intro hin
  unfold capEntries at hin
  rcases List.mem_cons.mp hin with heq | hmap
  · exact absurd heq (by decide)
  · obtain ⟨k, hk, heq⟩ := List.mem_map.mp hmap
    have hik := suffixCandidate_inj heq
    rw [List.mem_range] at hk
    omega

theorem capEntries_loop :
    uniqLoop capEntries (str "a") (str ".jpg") (capEntries.length + 1) (str "a.jpg") 1
      = some (suffixCandidate (str "a") (1 + 10000) (str ".jpg")) :=
  uniqLoop_reaches capEntries (str "a") (str ".jpg") 10000 (capEntries.length + 1) 1
    (str "a.jpg") (by unfold capEntries; exact List.mem_cons_self _ _)
    capEntries_mem capEntries_free (by rw [capEntries_length])

theorem unique_filepath_eq_of_loop {entries : List Str} {dir filename c : Str}
    (h : uniqLoop entries (splitext filename).1 (splitext filename).2
      (entries.length + 1) filename 1 = some c) :
    unique_filepath entries dir filename = some (joinPath dir c) := by
  unfold unique_filepath
  rw [h]

/-- Counterexample to claim C8 as stated: with `a.jpg` and the 10,000
numbered candidates `a_1.jpg .. a_10000.jpg` all present, the implementation
does not fail with a dedicated error beyond 10,000 retries — it keeps going
and returns `a_10001.jpg`. -/
theorem claim_C8_counterexample :
    unique_filepath capEntries FETCH_DIR (str "a.jpg")
      = some (str "Fetched_Images/a_10001.jpg") := by
  have hloop : uniqLoop capEntries (splitext (str "a.jpg")).1 (splitext (str "a.jpg")).2
      (capEntries.length + 1) (str "a.jpg") 1
      = some (suffixCandidate (str "a") (1 + 10000) (str ".jpg")) := by
    rw [show (splitext (str "a.jpg")).1 = str "a" from by decide,
        show (splitext (str "a.jpg")).2 = str ".jpg" from by decide]
    exact capEntries_loop
  rw [unique_filepath_eq_of_loop hloop]
  decide

/- ------------------------------------------------------------------ -/
/- `download_image` (src/fetch_image.py lines 95-112)                  -/
/- ------------------------------------------------------------------ -/

/-- `CHUNK_SIZE = 8192` (line 36). -/
def CHUNK_SIZE : Nat := 8192

/-- The HTTP response the streamed GET of `download_image` observes: the
final status code, declared media type, and the body as the sequence of
chunks that `resp.iter_content(CHUNK_SIZE)` yields. -/
structure HttpResponse where
  status : Nat
  contentType : Str
  chunks : List (List Nat)

/-- One iteration of the loop on lines 110-112: `if chunk:` appends a write
of the chunk unless it is empty. -/
def writeStep (acc : List (List Nat)) (c : List Nat) : List (List Nat) :=
  if c.isEmpty then acc else acc ++ [c]

/-- The sequence of `out_file.write(chunk)` calls made by the loop on lines
110-112. -/
def writeCalls (chunks : List (List Nat)) : List (List Nat) :=
  chunks.foldl writeStep []

/-- The bytes of the output file after the loop: the concatenation of all
written chunks (the file was opened in `"wb"` mode, so it holds exactly the
writes, in order). -/
def fileBytes (chunks : List (List Nat)) : List Nat :=
  (writeCalls chunks).flatten

/-- Outcome of `download_image`: either the body was streamed to the file, or
`resp.raise_for_status()` raised `HTTPError` before the file was opened. -/
inductive DownloadOutcome where
  | ok (written : List Nat)
  | httpStatusFailure (code : Nat)
  deriving DecidableEq

/-- `download_image` (lines 95-112).  `requests.Response.raise_for_status`
(external library, modelled from its documented semantics) raises `HTTPError`
exactly for status codes 400-599; only then is the output file opened and the
chunk loop run. -/
def download_image (r : HttpResponse) : DownloadOutcome :=
  if 400 ≤ r.status ∧ r.status ≤ 599 then .httpStatusFailure r.status
  else .ok (fileBytes r.chunks)

/-- The file at the output path after a `download_image` run, given its prior
state `old` (`none` = no file): the `open(output_path, "wb")` on line 109 is
reached only after `raise_for_status` passed. -/
def fileAfter (r : HttpResponse) (old : Option (List Nat)) : Option (List Nat) :=
  match download_image r with
  | .ok w => some w
  | .httpStatusFailure _ => old

theorem writeCalls_eq_filter (chunks : List (List Nat)) :
    writeCalls chunks = chunks.filter (fun c => !c.isEmpty) := by
  unfold writeCalls
  have hgen : ∀ (l : List (List Nat)) (acc : List (List Nat)),
      l.foldl writeStep acc = acc ++ l.filter (fun c => !c.isEmpty) := by
    intro l
    induction l with
    | nil => intro acc; simp
    | cons c t ih =>
      intro acc
      rw [List.foldl_cons, List.filter_cons]
      by_cases hc : c.isEmpty
      · rw [show writeStep acc c = acc from by unfold writeStep; rw [if_pos hc], ih acc]
        simp [hc]
      · rw [show writeStep acc c = acc ++ [c] from by
            unfold writeStep; rw [if_neg (by simpa using hc)], ih (acc ++ [c])]
        simp [hc]
  simpa using hgen chunks []

theorem fileBytes_eq_flatten (chunks : List (List Nat)) :
    fileBytes chunks = chunks.flatten := by
  unfold fileBytes
  rw [writeCalls_eq_filter]
  induction chunks with
  | nil => rfl
  | cons c t ih =>
    cases c with
    | nil => simp [List.filter_cons, ih]
    | cons x xs => simp [List.filter_cons, ih]

/-- Claim C3: writing the non-empty chunks in arrival order produces a file
equal to the concatenation of the received bytes, byte for byte, for every
chunking; empty chunks are discarded without a write call; for chunks of
sizes 8192, 8192, 500 the file holds 16884 bytes, in order. -/
theorem claim_C3 (chunks : List (List Nat)) :
    fileBytes chunks = chunks.flatten ∧
    writeCalls chunks = chunks.filter (fun c => !c.isEmpty) ∧
    (∀ c1 c2 c3 : List Nat,
      c1.length = CHUNK_SIZE → c2.length = CHUNK_SIZE → c3.length = 500 →
      fileBytes [c1, c2, c3] = c1 ++ c2 ++ c3 ∧
      (fileBytes [c1, c2, c3]).length = 16884) := by
  refine ⟨fileBytes_eq_flatten chunks, writeCalls_eq_filter chunks, ?_⟩
  intro c1 c2 c3 h1 h2 h3
  have hfl : fileBytes [c1, c2, c3] = c1 ++ c2 ++ c3 := by
    rw [fileBytes_eq_flatten]
    simp
  refine ⟨hfl, ?_⟩
  rw [hfl]
  simp only [List.length_append, h1, h2, h3]
  rfl

/-- Witness for claim C3 at a concrete body: two full 8192-byte chunks and a
final 500-byte chunk yield a 16884-byte file. -/
theorem claim_C3_witness :
    fileBytes [List.replicate 8192 7, List.replicate 8192 9, List.replicate 500 3]
        = List.replicate 8192 7 ++ List.replicate 8192 9 ++ List.replicate 500 3 ∧
    (fileBytes [List.replicate 8192 7, List.replicate 8192 9,
        List.replicate 500 3]).length = 16884 :=
  (claim_C3 []).2.2 (List.replicate 8192 7) (List.replicate 8192 9) (List.replicate 500 3)
    (by rw [List.length_replicate]; rfl) (by rw [List.length_replicate]; rfl)
    (by rw [List.length_replicate])

/-- Claim C4 (amended): for every response whose status is in 400..599 — the
range for which `raise_for_status` raises — the download yields the
`HttpStatusError` failure carrying the status code, and the output file is
not created: the status check precedes the `open`, so the prior filesystem
state is unchanged. -/
theorem claim_C4 (r : HttpResponse) (old : Option (List Nat))
    (h400 : 400 ≤ r.status) (h599 : r.status ≤ 599) :
    download_image r = .httpStatusFailure r.status ∧ fileAfter r old = old := by
  have hd : download_image r = .httpStatusFailure r.status := by
    unfold download_image
    rw [if_pos ⟨h400, h599⟩]
  refine ⟨hd, ?_⟩
  unfold fileAfter
  rw [hd]

/-- Witness for claim C4: a 404 response fails with `HttpStatusError 404`
and leaves a missing output file missing. -/
theorem claim_C4_witness :
    download_image ⟨404, str "text/html", [[60, 104, 62]]⟩
        = .httpStatusFailure 404 ∧
    fileAfter ⟨404, str "text/html", [[60, 104, 62]]⟩ none = none :=
  claim_C4 ⟨404, str "text/html", [[60, 104, 62]]⟩ none (by decide) (by decide)

/-- Counterexample to claim C4 as stated: status 304 is not 2xx, yet
`raise_for_status` does not raise for it, so the code opens and writes the
output file instead of failing with `HttpStatusError`. -/
theorem claim_C4_counterexample :
    download_image ⟨304, str "image/png", [[1, 2, 3]]⟩ ≠ .httpStatusFailure 304 ∧
    fileAfter ⟨304, str "image/png", [[1, 2, 3]]⟩ none = some [1, 2, 3] := by
  constructor
  · decide
  · decide

/- ------------------------------------------------------------------ -/
/- `extension_from_content_type` (src/fetch_image.py lines 55-70)      -/
/- ------------------------------------------------------------------ -/

/-- Python `str.lower()` (ASCII range; all media types of interest are
ASCII). -/
def pyLower (s : Str) : Str := s.map Char.toLower

/-- The whitespace characters removed by Python `str.strip()`. -/
def isSpaceChar (c : Char) : Bool :=
  c == ' ' || c == '\t' || c == '\n' || c == '\r' || c == '\x0b' || c == '\x0c'

/-- Python `str.strip()` with no argument. -/
def pyStrip (s : Str) : Str := stripChars isSpaceChar s

/-- The standard media-type → extension table consulted by
`mimetypes.guess_extension` (Python standard library, modelled from its
documented semantics and restricted to common entries; `"image/jpeg"` maps
to `".jpg"`). -/
def mimeTable : List (Str × Str) :=
  [(str "image/jpeg", str ".jpg"), (str "image/png", str ".png"),
   (str "image/gif", str ".gif"), (str "image/bmp", str ".bmp"),
   (str "image/tiff", str ".tiff"), (str "image/svg+xml", str ".svg"),
   (str "text/html", str ".html"), (str "text/plain", str ".txt"),
   (str "application/json", str ".json"), (str "application/pdf", str ".pdf")]

/-- `mimetypes.guess_extension` as a lookup in the table above. -/
def guess_extension (t : Str) : Option Str := mimeTable.lookup t

/-- `content_type.split(";")[0].strip().lower()` (line 63). -/
def mainTypeOf (ct : Str) : Str :=
  pyLower (pyStrip (ct.takeWhile (fun c => c != ';')))

/-- `main_type.split("/", 1)[1]`: everything after the first slash. -/
def subtypeAfterSlash (s : Str) : Str := (s.dropWhile (fun c => c != '/')).drop 1

/-- `extension_from_content_type` (lines 55-70). -/
def extension_from_content_type (ct : Str) : Str :=
  if ct = [] then []
  else
    match guess_extension (mainTypeOf ct) with
    | some e => e
    | none =>
      if (str "image/").isPrefixOf (mainTypeOf ct) then
        '.' :: subtypeAfterSlash (mainTypeOf ct)
      else []

/- takeWhile / dropWhile over an append -/

theorem takeWhile_append_all {α : Type} {p : α → Bool} {l1 : List α} (l2 : List α)
    (h : ∀ c ∈ l1, p c = true) :
    (l1 ++ l2).takeWhile p = l1 ++ l2.takeWhile p := by
  induction l1 with
  | nil => simp
  | cons a t ih =>
    rw [List.cons_append, List.takeWhile_cons, if_pos (h a (List.mem_cons_self a t)),
      ih (fun c hc => h c (List.mem_cons_of_mem a hc)), List.cons_append]

theorem dropWhile_append_all {α : Type} {p : α → Bool} {l1 : List α} (l2 : List α)
    (h : ∀ c ∈ l1, p c = true) :
    (l1 ++ l2).dropWhile p = l2.dropWhile p := by
  induction l1 with
  | nil => simp
  | cons a t ih =>
    rw [List.cons_append, List.dropWhile_cons_of_pos (h a (List.mem_cons_self a t)),
      ih (fun c hc => h c (List.mem_cons_of_mem a hc))]

theorem takeWhile_append_stop {α : Type} {p : α → Bool} :
    ∀ (l1 l2 : List α), (∃ c ∈ l1, p c = false) →
      (l1 ++ l2).takeWhile p = l1.takeWhile p := by
  intro l1
  induction l1 with
  | nil =>
    intro l2 h
    obtain ⟨c, hc, _⟩ := h
    simp at hc
  | cons a t ih =>
    intro l2 h
    by_cases ha : p a
    · have h2 : ∃ c ∈ t, p c = false := by
        obtain ⟨c, hc, hpc⟩ := h
        rcases List.mem_cons.mp hc with rfl | hct
        · rw [ha] at hpc; cases hpc
        · exact ⟨c, hct, hpc⟩
      rw [List.cons_append, List.takeWhile_cons, if_pos ha, List.takeWhile_cons,
        if_pos ha, ih l2 h2]
    · rw [List.cons_append, List.takeWhile_cons, if_neg ha, List.takeWhile_cons, if_neg ha]

theorem dropWhile_append_stop {α : Type} {p : α → Bool} :
    ∀ (l1 l2 : List α), (∃ c ∈ l1, p c = false) →
      (l1 ++ l2).dropWhile p = l1.dropWhile p ++ l2 := by
  intro l1
  induction l1 with
  | nil =>
    intro l2 h
    obtain ⟨c, hc, _⟩ := h
    simp at hc
  | cons a t ih =>
    intro l2 h
    by_cases ha : p a
    · have h2 : ∃ c ∈ t, p c = false := by
        obtain ⟨c, hc, hpc⟩ := h
        rcases List.mem_cons.mp hc with rfl | hct
        · rw [ha] at hpc; cases hpc
        · exact ⟨c, hct, hpc⟩
      rw [List.cons_append, List.dropWhile_cons_of_pos ha, List.dropWhile_cons_of_pos ha,
        ih l2 h2]
    · rw [List.cons_append, List.dropWhile_cons_of_neg ha, List.dropWhile_cons_of_neg ha,
        List.cons_append]

theorem takeWhile_semi_param (base params : Str) :
    (base ++ ';' :: params).takeWhile (fun c => c != ';')
      = base.takeWhile (fun c => c != ';') := by
  by_cases h : ∀ c ∈ base, (c != ';') = true
  · rw [takeWhile_append_all _ h]
    have h2 : (';' :: params).takeWhile (fun c : Char => c != ';') = [] := by
      rw [List.takeWhile_cons, if_neg (by simp)]
    rw [h2, List.append_nil, List.takeWhile_eq_self_iff.mpr h]
  · push_neg at h
    apply takeWhile_append_stop
    obtain ⟨c, hc, hpc⟩ := h
    exact ⟨c, hc, by simpa using hpc⟩

theorem mainTypeOf_param (base params : Str) :
    mainTypeOf (base ++ ';' :: params) = mainTypeOf base := by
  unfold mainTypeOf
  rw [takeWhile_semi_param]

/-- Claim C5: `extension_from_content_type` strips the trailing parameter
segment before lookup (a parameterized type maps as its bare base type); when
the table has no entry but the lowered main type starts with `image/` it
returns `'.'` followed by the subtype; otherwise — including the empty
string — it returns the empty string. -/
theorem claim_C5 (base params ct : Str) :
    extension_from_content_type (base ++ ';' :: params)
      = extension_from_content_type base ∧
    extension_from_content_type [] = [] ∧
    (∀ e, ct ≠ [] → guess_extension (mainTypeOf ct) = some e →
      extension_from_content_type ct = e) ∧
    (ct ≠ [] → guess_extension (mainTypeOf ct) = none →
      (str "image/").isPrefixOf (mainTypeOf ct) = true →
      extension_from_content_type ct = '.' :: subtypeAfterSlash (mainTypeOf ct)) ∧
    (ct ≠ [] → guess_extension (mainTypeOf ct) = none →
      (str "image/").isPrefixOf (mainTypeOf ct) = false →
      extension_from_content_type ct = []) := by
  refine ⟨?_, rfl, ?_, ?_, ?_⟩
  · unfold extension_from_content_type
    rw [mainTypeOf_param]
    by_cases hb : base = []
    · subst hb
      rw [if_neg (by simp), if_pos rfl]
      decide
    · rw [if_neg (by simp), if_neg hb]
  · intro e hct hguess
    unfold extension_from_content_type
    rw [if_neg hct, hguess]
  · intro hct hguess hpre
    unfold extension_from_content_type
    rw [if_neg hct, hguess, if_pos hpre]
  · intro hct hguess hpre
    unfold extension_from_content_type
    rw [if_neg hct, hguess, if_neg (by simp [hpre])]

/-- Witness for claim C5: `"image/png; charset=binary"` maps like bare
`"image/png"`, and the untabled `"image/x-custom"` falls back to
`".x-custom"`. -/
theorem claim_C5_witness :
    extension_from_content_type (str "image/png" ++ ';' :: str " charset=binary")
        = extension_from_content_type (str "image/png") ∧
    extension_from_content_type (str "image/x-custom") = str ".x-custom" := by
  constructor
  · exact (claim_C5 (str "image/png") (str " charset=binary") []).1
  · rw [(claim_C5 [] [] (str "image/x-custom")).2.2.2.1 (by decide) (by decide) (by decide)]
    decide

/- ------------------------------------------------------------------ -/
/- `filename_from_url` (src/fetch_image.py lines 46-52)                -/
/- ------------------------------------------------------------------ -/

/-- Characters a URL scheme may contain (`urllib.parse.scheme_chars`). -/
def schemeChars (c : Char) : Bool :=
  c.isAlpha || c.isDigit || c == '+' || c == '-' || c == '.'

/-- `urlsplit`: drop the fragment, everything from the first `'#'` on (for
the http-style URLs this tool handles, doing this first agrees with
CPython's split order). -/
def removeFragment (s : Str) : Str := s.takeWhile (fun c => c != '#')

/-- `urlsplit` scheme handling (modelled on CPython `urllib.parse`): when a
`':'` is preceded by a valid scheme — first character a letter, all
characters in `schemeChars` — the lowercased scheme is split off.  Returns
`(scheme, rest)`. -/
def splitScheme (s : Str) : Str × Str :=
  let post := s.dropWhile (fun c => c != ':')
  let pre := s.takeWhile (fun c => c != ':')
  if post = [] then ([], s)
  else if pre ≠ [] ∧ (pre.headD ' ').isAlpha ∧ pre.all schemeChars then
    (pyLower pre, post.drop 1)
  else ([], s)

/-- `urlsplit` netloc handling: when the remainder starts with `"//"`
(`url[:2] == '//'`), the netloc extends to the first of `'/'`, `'?'`, `'#'`;
the result is what follows the netloc. -/
def afterNetloc (s : Str) : Str :=
  if s.take 2 = str "//" then
    (s.drop 2).dropWhile (fun c => c != '/' && c != '?' && c != '#')
  else s

/-- The schemes for which `urlparse` splits `;parameters` off the path
(`urllib.parse.uses_params`). -/
def usesParams : List Str :=
  [str "", str "ftp", str "hdl", str "prospero", str "http", str "imap",
   str "https", str "shttp", str "rtsp", str "rtspu", str "sip", str "sips",
   str "mms", str "sftp", str "tel"]

/-- `urllib.parse._splitparams`: remove `;parameters`, splitting at the
first `';'` at or after the last `'/'` (at the first `';'` when the path has
no `'/'`). -/
def dropParams (p : Str) : Str :=
  if p.contains ';' then
    if p.contains '/' then
      let afterSlash := (p.reverse.takeWhile (fun c => c != '/')).reverse
      if afterSlash.contains ';' then
        p.take (p.length - afterSlash.length) ++ afterSlash.takeWhile (fun c => c != ';')
      else p
    else p.takeWhile (fun c => c != ';')
  else p

/-- The `.path` of `urllib.parse.urlparse(url)` (CPython `urlsplit` plus the
`uses_params` paragraph), for the http-family URLs the tool targets. -/
def urlparse_path (url : Str) : Str :=
  let sr := splitScheme (removeFragment url)
  let path := (afterNetloc sr.2).takeWhile (fun c => c != '?')
  if usesParams.contains sr.1 ∧ path.contains ';' then dropParams path else path

/-- posix `os.path.basename`: everything after the last `'/'`. -/
def basename (p : Str) : Str := (p.reverse.takeWhile (fun c => c != '/')).reverse

/-- `filename_from_url` (lines 46-52): the sanitized basename of the URL's
path, or `none` when that basename is empty. -/
def filename_from_url (url : Str) : Option Str :=
  let base := basename (urlparse_path url)
  if base = [] then none else some (sanitize_filename base)

theorem append_drop_one {α : Type} {l : List α} (x : List α) (h : l ≠ []) :
    (l ++ x).drop 1 = l.drop 1 ++ x := by
  cases l with
  | nil => exact absurd rfl h
  | cons a t => simp

/-- Appending a query behind `'?'` leaves the scheme split unchanged: the
rest component just carries the appended text along. -/
theorem splitScheme_query (u q : Str) :
    ∃ sch r, splitScheme u = (sch, r) ∧
      splitScheme (u ++ '?' :: q) = (sch, r ++ '?' :: q) ∧
      ∀ c ∈ r, c ∈ u := by
  by_cases hcol : ∃ c ∈ u, (c != ':') = false
  · have htw := takeWhile_append_stop u ('?' :: q) hcol
    have hdw := dropWhile_append_stop u ('?' :: q) hcol
    have hne : u.dropWhile (fun c => c != ':') ≠ [] := by
      rw [Ne, List.dropWhile_eq_nil_iff]
      push_neg
      obtain ⟨c, hc, hpc⟩ := hcol
      exact ⟨c, hc, by simp [hpc]⟩
    have hne2 : (u ++ '?' :: q).dropWhile (fun c => c != ':') ≠ [] := by
      rw [hdw]
      intro hnil
      exact hne (List.append_eq_nil.mp hnil).1
    by_cases hcond : u.takeWhile (fun c => c != ':') ≠ [] ∧
        ((u.takeWhile (fun c => c != ':')).headD ' ').isAlpha = true ∧
        (u.takeWhile (fun c => c != ':')).all schemeChars = true
    · refine ⟨pyLower (u.takeWhile (fun c => c != ':')),
        (u.dropWhile (fun c => c != ':')).drop 1, ?_, ?_, ?_⟩
      · simp only [splitScheme]
        rw [if_neg hne, if_pos hcond]
      · simp only [splitScheme]
        rw [htw, hdw,
          if_neg (show ¬(List.dropWhile (fun c => c != ':') u ++ '?' :: q = []) by simp),
          if_pos hcond, append_drop_one _ hne]
      · intro c hc
        exact (List.dropWhile_sublist _).mem ((List.drop_sublist 1 _).mem hc)
    · refine ⟨[], u, ?_, ?_, fun c hc => hc⟩
      · simp only [splitScheme]
        rw [if_neg hne, if_neg hcond]
      · simp only [splitScheme]
        rw [htw, hdw,
          if_neg (show ¬(List.dropWhile (fun c => c != ':') u ++ '?' :: q = []) by simp),
          if_neg hcond]
  · push_neg at hcol
    have hall : ∀ c ∈ u, (c != ':') = true := by
      intro c hc
      simpa [Bool.not_eq_false] using hcol c hc
    have hdnil : u.dropWhile (fun c => c != ':') = [] :=
      List.dropWhile_eq_nil_iff.mpr hall
    have hdapp : (u ++ '?' :: q).dropWhile (fun c => c != ':')
        = ('?' :: q).dropWhile (fun c => c != ':') := dropWhile_append_all _ hall
    by_cases hqq : ('?' :: q).dropWhile (fun c => c != ':') = []
    · refine ⟨[], u, ?_, ?_, fun c hc => hc⟩
      · simp only [splitScheme]
        rw [if_pos hdnil]
      · simp only [splitScheme]
        rw [if_pos (by rw [hdapp, hqq])]
    · have hmem : '?' ∈ (u ++ '?' :: q).takeWhile (fun c => c != ':') := by
        rw [takeWhile_append_all _ hall, List.takeWhile_cons, if_pos (by decide)]
        exact List.mem_append.mpr (Or.inr (List.mem_cons_self _ _))
      have hnc : ¬((u ++ '?' :: q).takeWhile (fun c => c != ':') ≠ [] ∧
          (((u ++ '?' :: q).takeWhile (fun c => c != ':')).headD ' ').isAlpha = true ∧
          ((u ++ '?' :: q).takeWhile (fun c => c != ':')).all schemeChars = true) := by
        rintro ⟨-, -, hallsch⟩
        have h2 := List.all_eq_true.mp hallsch '?' hmem
        simp [schemeChars] at h2
      refine ⟨[], u, ?_, ?_, fun c hc => hc⟩
      · simp only [splitScheme]
        rw [if_pos hdnil]
      · simp only [splitScheme]
        rw [if_neg (by rw [hdapp]; exact hqq), if_neg hnc]

theorem take_two_single {a : Char} : ¬(([a] : Str).take 2 = str "//") := by
  intro h
  have h2 := congrArg List.length h
  rw [show str "//" = ['/', '/'] from rfl] at h2
  simp [List.take] at h2

theorem take_two_slashes_head {a : Char} {rest : Str}
    (h : (a :: rest).take 2 = str "//") : a = '/' := by
  have h2 := congrArg (fun l : Str => l.headD ' ') h
  simpa using h2

theorem take_two_slashes_snd {a b : Char} {rest : Str}
    (h : (a :: b :: rest).take 2 = str "//") : b = '/' := by
  have h2 := congrArg (fun l : Str => l.tail.headD ' ') h
  simpa using h2

/-- Appending a query behind `'?'` leaves the netloc split unchanged. -/
theorem afterNetloc_query (r q : Str) :
    ∃ s, afterNetloc r = s ∧ afterNetloc (r ++ '?' :: q) = s ++ '?' :: q ∧
      ∀ c ∈ s, c ∈ r := by
  rcases r with _ | ⟨c1, _ | ⟨c2, t⟩⟩
  · refine ⟨[], rfl, ?_, by simp⟩
    rw [List.nil_append]
    unfold afterNetloc
    rw [if_neg (fun hh => absurd (take_two_slashes_head hh) (by decide))]
  · refine ⟨[c1], ?_, ?_, fun c hc => hc⟩
    · unfold afterNetloc
      rw [if_neg take_two_single]
    · rw [show (([c1] : Str) ++ '?' :: q) = c1 :: '?' :: q from rfl]
      unfold afterNetloc
      rw [if_neg (fun hh => absurd (take_two_slashes_snd hh) (by decide))]
  · by_cases h12 : c1 = '/' ∧ c2 = '/'
    · obtain ⟨rfl, rfl⟩ := h12
      by_cases hstop : ∃ c ∈ t, (c != '/' && c != '?' && c != '#') = false
      · refine ⟨t.dropWhile (fun c => c != '/' && c != '?' && c != '#'), rfl, ?_, ?_⟩
        · rw [show (('/' :: '/' :: t : Str) ++ '?' :: q) = '/' :: '/' :: (t ++ '?' :: q)
            from rfl]
          show (t ++ '?' :: q).dropWhile (fun c => c != '/' && c != '?' && c != '#') = _
          rw [dropWhile_append_stop t _ hstop]
        · intro c hc
          exact List.mem_cons_of_mem _ (List.mem_cons_of_mem _
            ((List.dropWhile_sublist _).mem hc))
      · push_neg at hstop
        have hall : ∀ c ∈ t, (c != '/' && c != '?' && c != '#') = true := by
          intro c hc
          simpa [Bool.not_eq_false, and_assoc] using hstop c hc
        refine ⟨[], ?_, ?_, by simp⟩
        · show t.dropWhile (fun c => c != '/' && c != '?' && c != '#') = []
          exact List.dropWhile_eq_nil_iff.mpr hall
        · rw [show (('/' :: '/' :: t : Str) ++ '?' :: q) = '/' :: '/' :: (t ++ '?' :: q)
            from rfl]
          show (t ++ '?' :: q).dropWhile (fun c => c != '/' && c != '?' && c != '#') = _
          rw [dropWhile_append_all _ hall, List.dropWhile_cons_of_neg (by decide),
            List.nil_append]
    · have hne1 : ¬(((c1 :: c2 :: t : Str)).take 2 = str "//") := by
        intro hh
        exact h12 ⟨take_two_slashes_head hh, take_two_slashes_snd hh⟩
      have hne2 : ¬((((c1 :: c2 :: t : Str) ++ '?' :: q)).take 2 = str "//") := by
        rw [show ((c1 :: c2 :: t : Str) ++ '?' :: q) = c1 :: c2 :: (t ++ '?' :: q) from rfl]
        intro hh
        exact h12 ⟨take_two_slashes_head hh, take_two_slashes_snd hh⟩
      refine ⟨c1 :: c2 :: t, ?_, ?_, fun c hc => hc⟩
      · unfold afterNetloc
        rw [if_neg hne1]
      · unfold afterNetloc
        rw [if_neg hne2, List.cons_append, List.cons_append]

/-- Appending a query string after `'?'` does not change the parsed path. -/
theorem urlparse_path_query (u q : Str)
    (huq : ∀ c ∈ u, (c != '?') = true) (huh : ∀ c ∈ u, (c != '#') = true)
    (hqh : ∀ c ∈ q, (c != '#') = true) :
    urlparse_path (u ++ '?' :: q) = urlparse_path u := by
  have hf1 : removeFragment (u ++ '?' :: q) = u ++ '?' :: q := by
    unfold removeFragment
    refine List.takeWhile_eq_self_iff.mpr ?_
    intro c hc
    rcases List.mem_append.mp hc with h | h
    · exact huh c h
    · rcases List.mem_cons.mp h with rfl | h
      · decide
      · exact hqh c h
  have hf2 : removeFragment u = u := by
    unfold removeFragment
    exact List.takeWhile_eq_self_iff.mpr huh
  obtain ⟨sch, r, hs1, hs2, hrsub⟩ := splitScheme_query u q
  have hruq : ∀ c ∈ r, (c != '?') = true := fun c hc => huq c (hrsub c hc)
  obtain ⟨s, hn1, hn2, hssub⟩ := afterNetloc_query r q
  have hsuq : ∀ c ∈ s, (c != '?') = true := fun c hc => hruq c (hssub c hc)
  have hp1 : (s ++ '?' :: q).takeWhile (fun c => c != '?') = s := by
    rw [takeWhile_append_all _ hsuq, List.takeWhile_cons, if_neg (by decide),
      List.append_nil]
  have hp2 : s.takeWhile (fun c => c != '?') = s :=
    List.takeWhile_eq_self_iff.mpr hsuq
  simp only [urlparse_path]
  rw [hf1, hf2, hs1, hs2]
  dsimp only
  rw [hn1, hn2, hp1, hp2]

/-- Claim C7 (amended): `filename_from_url` returns the sanitized final path
segment of the URL's path, ignoring the query string, and `none` when the
path has no final segment (root URL, or a path ending in a slash). -/
theorem claim_C7 (u q : Str)
    (huq : ∀ c ∈ u, (c != '?') = true) (huh : ∀ c ∈ u, (c != '#') = true)
    (hqh : ∀ c ∈ q, (c != '#') = true) :
    filename_from_url (str "https://example.com/path/pic.png?x=1")
      = some (str "pic.png") ∧
    filename_from_url (str "https://example.com/") = none ∧
    filename_from_url (u ++ '?' :: q) = filename_from_url u ∧
    (∀ url, basename (urlparse_path url) = [] → filename_from_url url = none) := by
  refine ⟨by decide, by decide, ?_, ?_⟩
  · simp only [filename_from_url]
    rw [urlparse_path_query u q huq huh hqh]
  · intro url hb
    simp only [filename_from_url]
    rw [hb, if_pos rfl]

/-- Witness for claim C7: the query `x=1` is ignored when deriving
`pic.png`. -/
theorem claim_C7_witness :
    filename_from_url (str "https://example.com/path/pic.png" ++ '?' :: str "x=1")
      = some (str "pic.png") := by
  rw [(claim_C7 (str "https://example.com/path/pic.png") (str "x=1")
    (by decide) (by decide) (by decide)).2.2.1]
  decide

/-- Counterexample to claim C7 as stated: the final path segment `a%20b.png`
is not returned verbatim — `filename_from_url` sanitizes it first. -/
theorem claim_C7_counterexample :
    filename_from_url (str "https://example.com/a%20b.png")
        ≠ some (str "a%20b.png") ∧
    filename_from_url (str "https://example.com/a%20b.png")
        = some (str "a_20b.png") := by
  constructor
  · decide
  · decide

/- ------------------------------------------------------------------ -/
/- `generate_filename` and the `main` pipeline (lines 87-151)          -/
/- ------------------------------------------------------------------ -/

/-- `generate_filename` (lines 87-92); the nondeterministic
`uuid.uuid4().hex` is passed in as `hexid`. -/
def generate_filename (hexid : Str) (ext : Str) : Str :=
  (str "image_" ++ hexid) ++
    (if ext ≠ [] ∧ ¬ ext.headD ' ' = '.' then '.' :: ext else ext)

/-- Outcome of the HEAD probe (lines 131-138): a response (final status and
Content-Type) or an exception raised by `requests.head` (`RequestException`
or any other `Exception`; interrupts are handled at top level, outside this
model). -/
inductive HeadOutcome where
  | resp (status : Nat) (contentType : Str)
  | exc

/-- What the `try` body of the probe does: `head.raise_for_status()` raises
for 4xx/5xx statuses, and the request itself may raise. -/
def head_probe_raw : HeadOutcome → Except Unit Str
  | .resp status ct =>
      if 400 ≤ status ∧ status ≤ 599 then .error () else .ok ct
  | .exc => .error ()

/-- `chosen_ext` after the try/except (lines 128-138): the `except` clause
catches every exception and leaves `chosen_ext = ""`. -/
def head_probe_ext (h : HeadOutcome) : Str :=
  match head_probe_raw h with
  | .ok ct => extension_from_content_type ct
  | .error _ => []

/-- The candidate-filename composition of `main` (lines 140-147): append the
probed extension when the derived name has no dot; generate a random name
when the URL gives none. -/
def resolve_filename (url : Str) (chosen_ext : Str) (hexid : Str) : Str :=
  match filename_from_url url with
  | some f => if ¬ f.contains '.' = true ∧ chosen_ext ≠ [] then f ++ chosen_ext else f
  | none => generate_filename hexid chosen_ext

/-- Lines 149-151 of `main`: sanitize, then resolve uniqueness against the
output directory. -/
def resolve_output_path (entries : List Str) (url chosen_ext hexid : Str) :
    Option Str :=
  unique_filepath entries FETCH_DIR
    (sanitize_filename (resolve_filename url chosen_ext hexid))

/-- The filename-resolution part of `main` from the HEAD probe through
`unique_filepath` (lines 127-151). -/
def main_resolve (entries : List Str) (url : Str) (h : HeadOutcome) (hexid : Str) :
    Option Str :=
  resolve_output_path entries url (head_probe_ext h) hexid

/-- Claim C6: when the derived base name has no dot and an extension is
available it is appended before the final sanitize; when no base name can be
derived the random name (with the best available extension) is used; sanitize
always runs before `unique_filepath`; and for `https://x/img` probed as
`image/jpeg` the resolved path is `Fetched_Images/img.jpg`. -/
theorem claim_C6 (entries : List Str) (url ext hexid f : Str) :
    (filename_from_url url = some f → ¬ f.contains '.' = true → ext ≠ [] →
      resolve_output_path entries url ext hexid
        = unique_filepath entries FETCH_DIR (sanitize_filename (f ++ ext))) ∧
    (filename_from_url url = none →
      resolve_output_path entries url ext hexid
        = unique_filepath entries FETCH_DIR
            (sanitize_filename (generate_filename hexid ext))) ∧
    main_resolve [] (str "https://x/img") (.resp 200 (str "image/jpeg")) hexid
      = some (str "Fetched_Images/img.jpg") := by
  refine ⟨?_, ?_, ?_⟩
  · intro hf hdot hext
    unfold resolve_output_path resolve_filename
    rw [hf]
    dsimp only
    rw [if_pos ⟨hdot, hext⟩]
  · intro hf
    unfold resolve_output_path resolve_filename
    rw [hf]
  · unfold main_resolve resolve_output_path resolve_filename
    rw [show head_probe_ext (.resp 200 (str "image/jpeg")) = str ".jpg" from by decide,
        show filename_from_url (str "https://x/img") = some (str "img") from by decide]
    dsimp only
    rw [if_pos ⟨by decide, by decide⟩]
    decide

/-- Witness for claim C6 at concrete inputs: the dot-less base `img` gets the
probed `.jpg` appended, and the full pipeline resolves `img.jpg`. -/
theorem claim_C6_witness :
    resolve_output_path [] (str "https://x/img") (str ".jpg") (str "abcd")
      = unique_filepath [] FETCH_DIR (sanitize_filename (str "img" ++ str ".jpg")) ∧
    main_resolve [] (str "https://x/img") (.resp 200 (str "image/jpeg")) (str "abcd")
      = some (str "Fetched_Images/img.jpg") := by
  constructor
  · exact (claim_C6 [] (str "https://x/img") (str ".jpg") (str "abcd") (str "img")).1
      (by decide) (by decide) (by decide)
  · exact (claim_C6 [] (str "https://x/img") (str ".jpg") (str "abcd") (str "img")).2.2

/-- Claim C9: every failure of the HEAD probe — any raised exception,
including `raise_for_status` on an error status — is absorbed locally: the
extension degrades to the empty string, a successful probe yields the
Content-Type's extension, and the overall resolution always completes. -/
theorem claim_C9 (entries : List Str) (url : Str) (h : HeadOutcome) (hexid : Str) :
    (∀ e, head_probe_raw h = .error e → head_probe_ext h = []) ∧
    (∀ ct, head_probe_raw h = .ok ct →
      head_probe_ext h = extension_from_content_type ct) ∧
    (main_resolve entries url h hexid).isSome = true := by
  refine ⟨?_, ?_, ?_⟩
  · intro e he
    unfold head_probe_ext
    rw [he]
  · intro ct hct
    unfold head_probe_ext
    rw [hct]
  · unfold main_resolve resolve_output_path
    exact unique_filepath_isSome _ _ _

/-- Witness for claim C9: a raising probe yields the empty extension and the
resolution still returns a path. -/
theorem claim_C9_witness :
    head_probe_ext .exc = [] ∧
    (main_resolve [] (str "https://x/img") .exc (str "abcd")).isSome = true := by
  constructor
  · exact (claim_C9 [] (str "https://x/img") .exc (str "abcd")).1 () rfl
  · exact (claim_C9 [] (str "https://x/img") .exc (str "abcd")).2.2
